import Mathlib

/-!
Shallow embedding of the rust-company-track repository (src/src/company.rs,
src/src/domain.rs, src/src/lib.rs) and proofs about the spec's claims.

Modelling conventions:
* Rust `Rc<T>` sharing is modelled by plain values (value semantics); the
  entities pushed into the collections and into the event buffer are equal
  values, which is all the claims observe.
* Rust `Result<(), String>` mutating methods on `&mut self` are modelled as
  total state transitions returning `Company × Except String Unit`; on the
  error path the Rust body performs no mutation before `return Err(..)`,
  which the model reflects by returning the input state unchanged.
* `cuid::cuid2()` generates a fresh opaque identifier; the model takes the
  generated identifier as an explicit argument, and freshness (collision
  resistance) is a hypothesis where a proof needs it.
* The SQLite database is modelled as its two tables, each a list of rows in
  rowid (= insertion) order, which is the natural return order of the
  `SELECT` statements the code issues (none has an `ORDER BY`).
  `INSERT` enforces the declared `PRIMARY KEY` and `UNIQUE` constraints;
  the `REFERENCES` clause is not enforced (SQLite foreign keys are off by
  default and the code never enables them).
* String normalization `trim().to_lowercase()` is modelled by structural
  recursion on the string's character list (`trimString`, `lowerString`),
  which agrees with Rust's `str::trim` / `str::to_lowercase` on ASCII input
  (Rust additionally trims non-ASCII Unicode whitespace and applies the full
  Unicode lowercase mapping; no claim depends on non-ASCII input).
* `len() as u32` casts are modelled as `Nat` lengths: the cast is the
  identity below 2^32 and every claim's statement is about list lengths.
-/

namespace CompanyTrack

/-- Models Rust `str::trim`: the string without its leading and trailing
whitespace characters. -/
def trimString (s : String) : String :=
  String.mk (((s.data.dropWhile Char.isWhitespace).reverse.dropWhile Char.isWhitespace).reverse)

/-- Models Rust `str::to_lowercase` (ASCII fragment): lowercase every
character. -/
def lowerString (s : String) : String :=
  String.mk (s.data.map Char.toLower)

/-- Department entity (company.rs lines 15-19): id and display name. -/
structure Department where
  id : String
  name : String
deriving DecidableEq, Repr

/-- Employee entity (company.rs lines 21-26): id, display name, owning
department id. -/
structure Employee where
  id : String
  name : String
  department_id : String
deriving DecidableEq, Repr

/-- Tagged domain-event variant `CompanyEvents` (company.rs lines 9-13). -/
inductive CompanyEvents where
  | DepartmentAdded (department : Department)
  | EmployeeHired (employee : Employee)
deriving DecidableEq, Repr

/-- Wrapper struct `DomainEvent<T>` (domain.rs lines 16-19). -/
structure DomainEvent (T : Type) where
  event : T
deriving DecidableEq, Repr

/-- The `Company` aggregate root (company.rs lines 28-33): departments,
employees and the uncommitted-event buffer. -/
structure Company where
  departments : List Department
  employees : List Employee
  events : List (DomainEvent CompanyEvents)
deriving DecidableEq, Repr

/-- `Company::default()` (derived `Default`): all collections empty. -/
def Company.mkDefault : Company :=
  { departments := [], employees := [], events := [] }

/-- `AggregateRoot::apply` (company.rs lines 36-38): push the event onto the
buffer (`Vec::push` appends at the end). -/
def Company.apply (c : Company) (event : CompanyEvents) : Company :=
  { c with events := c.events ++ [{ event := event }] }

/-- `AggregateRoot::commit` (company.rs lines 40-42): replace the buffer by a
fresh empty vector. -/
def Company.commit (c : Company) : Company :=
  { c with events := [] }

/-- `AggregateRoot::get_uncommited_events` (company.rs lines 44-46). -/
def Company.get_uncommited_events (c : Company) : List (DomainEvent CompanyEvents) :=
  c.events

/-- `Company::find_department` (company.rs lines 170-174): first department
whose stored name equals the argument exactly (no normalization here). -/
def Company.find_department (c : Company) (department_name : String) : Option Department :=
  c.departments.find? (fun department => department.name == department_name)

/-- `Company::add_department` (company.rs lines 112-131): normalize the input
(trim, lowercase), fail if a department with that stored name exists,
otherwise append the department and a `DepartmentAdded` event. `freshId`
stands for the `cuid::cuid2()` call. -/
def Company.add_department (c : Company) (freshId : String) (department_name : String) :
    Company × Except String Unit :=
  let department_name := lowerString (trimString department_name)
  if (c.find_department department_name).isSome then
    (c, Except.error ("El departamento " ++ department_name ++ " ya forma parte de la compañía"))
  else
    let department : Department := { id := freshId, name := department_name }
    let c := { c with departments := c.departments ++ [department] }
    (c.apply (CompanyEvents.DepartmentAdded department), Except.ok ())

/-- `Company::hire_employee` (company.rs lines 133-155): look the department
up by the raw (un-normalized) name; on success append the employee (name
trimmed, case preserved) and an `EmployeeHired` event; otherwise fail. -/
def Company.hire_employee (c : Company) (freshId : String)
    (employee_name department_name : String) : Company × Except String Unit :=
  match c.find_department department_name with
  | some department =>
    let employee : Employee :=
      { id := freshId, name := trimString employee_name, department_id := department.id }
    let c := { c with employees := c.employees ++ [employee] }
    (c.apply (CompanyEvents.EmployeeHired employee), Except.ok ())
  | none =>
    (c, Except.error ("No se ha encontrado el departamento " ++ department_name))

/-- `Company::get_total_employees` (company.rs lines 157-159). -/
def Company.get_total_employees (c : Company) : Nat :=
  c.employees.length

/-- `Company::get_employees_by_department` (company.rs lines 161-168). -/
def Company.get_employees_by_department (c : Company) (department_id : String) : Nat :=
  (c.employees.filter (fun employee => department_id == employee.department_id)).length

/-- The two-table storage state: `departments(id, name)` and
`employees(id, name, department_id)` rows in rowid order (lib.rs lines
61-76 for the schema). -/
structure Database where
  departments : List Department
  employees : List Employee
deriving DecidableEq, Repr

/-- The insert statements `save` can execute (company.rs lines 93-96 and
99-102). -/
inductive SqlInsert where
  | insertDepartment (department : Department)
  | insertEmployee (employee : Employee)
deriving DecidableEq, Repr

/-- `db.execute(INSERT ...)`: append the row, enforcing the schema's
`PRIMARY KEY` and `UNIQUE` constraints (lib.rs lines 61-76); the
`REFERENCES` clause is not enforced (SQLite default). -/
def Database.execute (db : Database) (stmt : SqlInsert) : Except String Database :=
  match stmt with
  | SqlInsert.insertDepartment department =>
    if db.departments.any (fun row => row.id == department.id) then
      Except.error "UNIQUE constraint failed: departments.id"
    else if db.departments.any (fun row => row.name == department.name) then
      Except.error "UNIQUE constraint failed: departments.name"
    else
      Except.ok { db with departments := db.departments ++ [department] }
  | SqlInsert.insertEmployee employee =>
    if db.employees.any (fun row => row.id == employee.id) then
      Except.error "UNIQUE constraint failed: employees.id"
    else if db.employees.any (fun row => row.name == employee.name) then
      Except.error "UNIQUE constraint failed: employees.name"
    else
      Except.ok { db with employees := db.employees ++ [employee] }

/-- The insert statement the `match` arm in `save` (company.rs lines 91-104)
executes for one buffered event. -/
def eventInsert (domain_event : DomainEvent CompanyEvents) : SqlInsert :=
  match domain_event.event with
  | CompanyEvents.DepartmentAdded department => SqlInsert.insertDepartment department
  | CompanyEvents.EmployeeHired employee => SqlInsert.insertEmployee employee

/-- The ordered list of insert statements one `save` call issues
(company.rs lines 85-108): one per uncommitted event, in buffer order. -/
def Company.saveInserts (c : Company) : List SqlInsert :=
  (c.get_uncommited_events).map eventInsert

/-- `Repository::save` (company.rs lines 85-108): execute the inserts in
order; the first database error aborts the loop (`?`) with rows already
inserted kept (no transaction). `save` takes `&self`, so it returns only
the new database state. -/
def Repository.save (c : Company) (db : Database) : Except String Database :=
  (c.saveInserts).foldlM Database.execute db

/-- The caller-visible state transition of a `save` call: the aggregate is
passed by shared reference (`&self`), so the post-call aggregate is the
pre-call one. -/
def Repository.saveCall (c : Company) (db : Database) :
    Except String (Company × Database) :=
  (Repository.save c db).map (fun db' => (c, db'))

/-- `Repository::get` (company.rs lines 50-83): select all departments in
natural order; for each, select its employees (`WHERE department_id = ?`)
and push them, then push the department. Hydration leaves the event buffer
empty. -/
def Repository.get (db : Database) : Company :=
  { departments := db.departments
    employees :=
      db.departments.flatMap (fun dpt =>
        db.employees.filter (fun employee => employee.department_id == dpt.id))
    events := [] }

/-- Models the percentage field of one `company_distribution` entry
(lib.rs lines 193-201): the f32 computation
`(employees as f32) * 100.0 / (total_employees as f32)` is a finite rational
when the divisor is nonzero (counts this small are exact in f32 up to the
final rounding, which the claims never observe), and is NaN or an infinity
— modelled as `none` — when `total_employees == 0`. -/
def reportPct (employees total_employees : Nat) : Option Rat :=
  if total_employees = 0 then none
  else some ((employees : Rat) * 100 / (total_employees : Rat))

/-- The report object `generate_report` produces (lib.rs lines 183-213):
department count, total employees, and per-department distribution entries
(name, percentage, employee count) in department order. The Rust code
collects the entries into a `HashMap` keyed by department name; the model
keeps the insertion-ordered list of entries. -/
structure Report where
  departments : Nat
  employees : Nat
  company_distribution : List (String × Option Rat × Nat)
deriving DecidableEq, Repr

/-- `generate_report` (lib.rs lines 183-213), restricted to the data it
computes (the file write is I/O). -/
def generate_report (c : Company) : Report :=
  let total_employees := c.get_total_employees
  { departments := c.departments.length
    employees := total_employees
    company_distribution :=
      c.departments.map (fun department =>
        let employees := c.get_employees_by_department department.id
        (department.name, reportPct employees total_employees, employees)) }

/-- The department row an insert statement writes, if it is a department
insert. -/
def insertedDepartment : SqlInsert → Option Department
  | SqlInsert.insertDepartment department => some department
  | SqlInsert.insertEmployee _ => none

/-- The employee row an insert statement writes, if it is an employee
insert. -/
def insertedEmployee : SqlInsert → Option Employee
  | SqlInsert.insertDepartment _ => none
  | SqlInsert.insertEmployee employee => some employee

/-- A sample aggregate with two buffered events, used to instantiate the
repository theorems on concrete data. -/
def sampleSavedCompany : Company :=
  ((Company.mkDefault.add_department "d1" "Engineering ").1.hire_employee
      "e1" "Alice" "engineering").1

/-- The empty storage state. -/
def sampleDb : Database :=
  { departments := [], employees := [] }

/-- The storage state after saving `sampleSavedCompany`'s events into
`sampleDb`. -/
def sampleSavedDb : Database :=
  { departments := [{ id := "d1", name := "engineering" }],
    employees := [{ id := "e1", name := "Alice", department_id := "d1" }] }

end CompanyTrack

deriving instance DecidableEq for Except

namespace CompanyTrack

lemma find_department_eq_none (c : Company) (n : String)
    (h : ∀ d ∈ c.departments, d.name ≠ n) : c.find_department n = none := by
  simp only [Company.find_department, List.find?_eq_none, beq_iff_eq]
  exact h

lemma find_department_isSome_of (c : Company) (n : String)
    (h : ∃ d ∈ c.departments, d.name = n) : (c.find_department n).isSome = true := by
  simp only [Company.find_department, List.find?_isSome, beq_iff_eq]
  exact h

/-- C3: for every company and every input name whose trim+lowercase
normalization equals the name of an already-present department,
`add_department` returns the duplicate-department error, regardless of the
original casing and surrounding whitespace of the input. -/
theorem add_department_duplicate_rejected (c : Company) (freshId name : String)
    (h : ∃ d ∈ c.departments, d.name = lowerString (trimString name)) :
    (c.add_department freshId name).2
      = Except.error ("El departamento " ++ lowerString (trimString name)
          ++ " ya forma parte de la compañía") := by
  have hs := find_department_isSome_of c (lowerString (trimString name)) h
  simp [Company.add_department, hs]

theorem add_department_duplicate_rejected_witness :
    ((Company.mkDefault.add_department "d1" "Engineering ").1.add_department
        "d2" " ENGINEERING ").2
      = Except.error ("El departamento " ++ lowerString (trimString " ENGINEERING ")
          ++ " ya forma parte de la compañía") :=
  add_department_duplicate_rejected _ "d2" " ENGINEERING " (by decide)

/-- C4: hiring into a department name no department carries fails with the
department-not-found error and leaves the employee collection exactly as it
was. -/
theorem hire_employee_unknown_department (c : Company) (freshId en dn : String)
    (h : ∀ d ∈ c.departments, d.name ≠ dn) :
    (c.hire_employee freshId en dn).2
        = Except.error ("No se ha encontrado el departamento " ++ dn)
    ∧ (c.hire_employee freshId en dn).1.employees = c.employees := by
  have hn := find_department_eq_none c dn h
  constructor <;> simp [Company.hire_employee, hn]

theorem hire_employee_unknown_department_witness :
    (((Company.mkDefault.add_department "d1" "Engineering ").1.hire_employee
        "e1" "Bob" "Marketing").2
      = Except.error ("No se ha encontrado el departamento " ++ "Marketing"))
    ∧ ((Company.mkDefault.add_department "d1" "Engineering ").1.hire_employee
        "e1" "Bob" "Marketing").1.employees
        = (Company.mkDefault.add_department "d1" "Engineering ").1.employees :=
  hire_employee_unknown_department _ "e1" "Bob" "Marketing" (by decide)

/-- C9: whenever `add_department` returns an error the entire aggregate —
departments, employees and the uncommitted-event buffer — is exactly as it
was before the call. -/
theorem add_department_error_leaves_aggregate_unchanged (c : Company)
    (freshId name msg : String)
    (h : (c.add_department freshId name).2 = Except.error msg) :
    (c.add_department freshId name).1 = c := by
  by_cases hs : (c.find_department (lowerString (trimString name))).isSome = true
  · simp [Company.add_department, hs]
  · exfalso
    simp [Company.add_department, hs] at h

theorem add_department_error_leaves_aggregate_unchanged_witness :
    ((Company.mkDefault.add_department "d1" "Engineering ").1.add_department
        "d2" "engineering").1
      = (Company.mkDefault.add_department "d1" "Engineering ").1 :=
  add_department_error_leaves_aggregate_unchanged _ "d2" "engineering"
    "El departamento engineering ya forma parte de la compañía" (by decide)

/-- C10: a department name that normalizes to the empty string is accepted
when no department is named "" (the department is stored with the empty
name), and an employee name that trims to the empty string is accepted by
`hire_employee` whenever the department lookup succeeds: there is no
non-emptiness validation. -/
theorem empty_normalized_names_accepted (c : Company) (freshId name : String)
    (hn : lowerString (trimString name) = "")
    (hno : ∀ d ∈ c.departments, d.name ≠ "") :
    ((c.add_department freshId name).2 = Except.ok ()
      ∧ (c.add_department freshId name).1.departments
          = c.departments ++ [{ id := freshId, name := "" }])
    ∧ ∀ (c₂ : Company) (freshId₂ en dn : String) (dep : Department),
        trimString en = "" → c₂.find_department dn = some dep →
        (c₂.hire_employee freshId₂ en dn).2 = Except.ok ()
        ∧ (c₂.hire_employee freshId₂ en dn).1.employees
            = c₂.employees ++ [{ id := freshId₂, name := "", department_id := dep.id }] := by
  have hnone : c.find_department "" = none := find_department_eq_none c "" hno
  refine ⟨⟨?_, ?_⟩, ?_⟩
  · simp [Company.add_department, hnone, hn]
  · simp [Company.add_department, hnone, hn, Company.apply]
  · intro c₂ freshId₂ en dn dep htrim hfind
    constructor <;> simp [Company.hire_employee, hfind, htrim, Company.apply]

theorem empty_normalized_names_accepted_witness :
    ((Company.mkDefault.add_department "d1" "   ").2 = Except.ok ()
      ∧ (Company.mkDefault.add_department "d1" "   ").1.departments
          = Company.mkDefault.departments ++ [{ id := "d1", name := "" }])
    ∧ (((Company.mkDefault.add_department "d1" "   ").1.hire_employee
          "e1" "  " "").2 = Except.ok ()
        ∧ ((Company.mkDefault.add_department "d1" "   ").1.hire_employee
            "e1" "  " "").1.employees
          = (Company.mkDefault.add_department "d1" "   ").1.employees
              ++ [{ id := "e1", name := "", department_id := "d1" }]) := by
  have h := empty_normalized_names_accepted Company.mkDefault "d1" "   "
    (by decide) (by decide)
  exact ⟨h.1, h.2 _ "e1" "  " "" { id := "d1", name := "" } (by decide) (by decide)⟩

/-- C1 (amended): the department lookup in `hire_employee` is by exact match
against the stored (already normalized) name, so hiring succeeds — and the
total employee count grows by one — exactly when the passed department name
equals a stored name verbatim. -/
theorem hire_employee_exact_match (c : Company) (freshId en dn : String)
    (h : ∃ d ∈ c.departments, d.name = dn) :
    (c.hire_employee freshId en dn).2 = Except.ok ()
    ∧ (c.hire_employee freshId en dn).1.get_total_employees
        = c.get_total_employees + 1 := by
  have hs := find_department_isSome_of c dn h
  obtain ⟨dep, hdep⟩ := Option.isSome_iff_exists.mp hs
  constructor <;>
    simp [Company.hire_employee, hdep, Company.apply, Company.get_total_employees]

theorem hire_employee_exact_match_witness :
    (((Company.mkDefault.add_department "d1" "Engineering ").1.hire_employee
        "e1" "Alice" "engineering").2 = Except.ok ())
    ∧ ((Company.mkDefault.add_department "d1" "Engineering ").1.hire_employee
        "e1" "Alice" "engineering").1.get_total_employees
      = (Company.mkDefault.add_department "d1" "Engineering ").1.get_total_employees
          + 1 :=
  hire_employee_exact_match _ "e1" "Alice" "engineering" (by decide)

/-- C1 (counterexample): after adding "Engineering " (stored as
"engineering"), hiring "Alice" into "Engineering" — whose trim+lowercase
normalization equals the stored name — fails with the department-not-found
error and the total employee count stays 0, contradicting the claim that the
lookup is by normalized name. -/
theorem hire_employee_normalized_lookup_cex :
    (lowerString (trimString "Engineering") = "engineering")
    ∧ ((Company.mkDefault.add_department "d1" "Engineering ").1.departments
        = [{ id := "d1", name := "engineering" }])
    ∧ (((Company.mkDefault.add_department "d1" "Engineering ").1.hire_employee
        "e1" "Alice" "Engineering").2
      = Except.error "No se ha encontrado el departamento Engineering")
    ∧ (((Company.mkDefault.add_department "d1" "Engineering ").1.hire_employee
        "e1" "Alice" "Engineering").1.get_total_employees = 0) := by
  decide

lemma execute_ok_shape (db : Database) (s : SqlInsert) (db₁ : Database)
    (h : Database.execute db s = Except.ok db₁) :
    db₁.departments = db.departments ++ (insertedDepartment s).toList
    ∧ db₁.employees = db.employees ++ (insertedEmployee s).toList := by
  cases s with
  | insertDepartment d =>
    simp only [Database.execute] at h
    split at h
    · exact Except.noConfusion h
    · split at h
      · exact Except.noConfusion h
      · injection h with h
        subst h
        simp [insertedDepartment, insertedEmployee]
  | insertEmployee e =>
    simp only [Database.execute] at h
    split at h
    · exact Except.noConfusion h
    · split at h
      · exact Except.noConfusion h
      · injection h with h
        subst h
        simp [insertedDepartment, insertedEmployee]

lemma foldlM_execute_ok (stmts : List SqlInsert) :
    ∀ db db' : Database,
      List.foldlM Database.execute db stmts = Except.ok db' →
      db'.departments = db.departments ++ stmts.filterMap insertedDepartment
      ∧ db'.employees = db.employees ++ stmts.filterMap insertedEmployee := by
  induction stmts with
  | nil =>
    intro db db' h
    rw [List.foldlM_nil] at h
    injection h with h
    subst h
    simp
  | cons s rest ih =>
    intro db db' h
    rw [List.foldlM_cons] at h
    cases hex : Database.execute db s with
    | error e =>
      rw [hex] at h
      exact Except.noConfusion h
    | ok db₁ =>
      rw [hex] at h
      have h' : List.foldlM Database.execute db₁ rest = Except.ok db' := h
      obtain ⟨h1, h2⟩ := ih db₁ db' h'
      obtain ⟨g1, g2⟩ := execute_ok_shape db s db₁ hex
      constructor
      · rw [h1, g1, List.append_assoc]
        cases s <;> simp [insertedDepartment]
      · rw [h2, g2, List.append_assoc]
        cases s <;> simp [insertedEmployee]

/-- C7: a successful `save` call executes exactly one insert per uncommitted
event, matching the event's variant, in buffer order — the departments table
gains exactly the added departments and the employees table exactly the
hired employees, each in event order — and the aggregate (in particular its
event buffer) is left unchanged. -/
theorem save_executes_one_insert_per_event (c : Company) (db : Database)
    (c' : Company) (db' : Database)
    (h : Repository.saveCall c db = Except.ok (c', db')) :
    c' = c
    ∧ c.saveInserts = (c.get_uncommited_events).map eventInsert
    ∧ db'.departments = db.departments ++ c.saveInserts.filterMap insertedDepartment
    ∧ db'.employees = db.employees ++ c.saveInserts.filterMap insertedEmployee := by
  cases hsave : Repository.save c db with
  | error e =>
    rw [Repository.saveCall, hsave] at h
    exact Except.noConfusion h
  | ok db₁ =>
    rw [Repository.saveCall, hsave] at h
    have hpair : (c, db₁) = (c', db') := by
      injection h with h
    obtain ⟨hc, hdb⟩ := Prod.mk.injEq .. |>.mp hpair
    subst hc
    subst hdb
    rw [Repository.save] at hsave
    obtain ⟨h1, h2⟩ := foldlM_execute_ok c.saveInserts db db₁ hsave
    exact ⟨rfl, rfl, h1, h2⟩

theorem save_executes_one_insert_per_event_witness :
    sampleSavedCompany = sampleSavedCompany
    ∧ sampleSavedCompany.saveInserts
        = (sampleSavedCompany.get_uncommited_events).map eventInsert
    ∧ sampleSavedDb.departments
        = sampleDb.departments
            ++ sampleSavedCompany.saveInserts.filterMap insertedDepartment
    ∧ sampleSavedDb.employees
        = sampleDb.employees
            ++ sampleSavedCompany.saveInserts.filterMap insertedEmployee :=
  save_executes_one_insert_per_event sampleSavedCompany sampleDb
    sampleSavedCompany sampleSavedDb (by decide)

/-- C8: `commit` empties the uncommitted-event buffer and changes nothing
else; committing an already-empty buffer is a no-op and `commit` is
idempotent; a second `save` with no intervening mutation or commit issues
exactly the same inserts (the aggregate a successful `save` hands back has
the same buffer), while `save` after `commit` issues no inserts at all. -/
theorem commit_clears_buffer_contract (c : Company) (db : Database) :
    ((c.commit).events = []
      ∧ (c.commit).departments = c.departments
      ∧ (c.commit).employees = c.employees)
    ∧ (c.events = [] → c.commit = c)
    ∧ (c.commit).commit = c.commit
    ∧ (∀ (c' : Company) (db₁ : Database),
        Repository.saveCall c db = Except.ok (c', db₁) →
        c'.saveInserts = c.saveInserts)
    ∧ (c.commit).saveInserts = [] := by
  refine ⟨⟨rfl, rfl, rfl⟩, ?_, rfl, ?_, rfl⟩
  · intro h
    cases c with
    | mk departments employees events =>
      simp only [Company.commit]
      rw [← h]
  · intro c' db₁ h
    cases hsave : Repository.save c db with
    | error e =>
      rw [Repository.saveCall, hsave] at h
      exact Except.noConfusion h
    | ok db₂ =>
      rw [Repository.saveCall, hsave] at h
      have hpair : (c, db₂) = (c', db₁) := by
        injection h with h
      rw [← (Prod.mk.injEq .. |>.mp hpair).1]

theorem commit_clears_buffer_contract_witness :
    Company.mkDefault.commit = Company.mkDefault :=
  (commit_clears_buffer_contract Company.mkDefault sampleDb).2.1 rfl

/-- Company states reachable from `Company::default()` by `add_department`
and `hire_employee` calls, or hydrated by `Repository::get` from a storage
state whose departments table respects its `PRIMARY KEY` constraint.
Freshness of the identifier supplied to `add_department` models the
collision resistance of `cuid::cuid2()`. -/
inductive Reachable : Company → Prop where
  | base : Reachable Company.mkDefault
  | load (db : Database)
      (hnodup : (db.departments.map Department.id).Nodup) :
      Reachable (Repository.get db)
  | addDept (c : Company) (freshId name : String) (hr : Reachable c)
      (hfresh : freshId ∉ c.departments.map Department.id) :
      Reachable (c.add_department freshId name).1
  | hire (c : Company) (freshId en dn : String) (hr : Reachable c) :
      Reachable (c.hire_employee freshId en dn).1

/-- The structural invariant behind the counting claim: department ids are
pairwise distinct and every employee references a present department. -/
def CompanyInv (c : Company) : Prop :=
  (c.departments.map Department.id).Nodup
  ∧ ∀ e ∈ c.employees, e.department_id ∈ c.departments.map Department.id

lemma inv_of_reachable {c : Company} (h : Reachable c) : CompanyInv c := by
  induction h with
  | base =>
    exact ⟨List.nodup_nil, by simp [Company.mkDefault]⟩
  | load db hnodup =>
    refine ⟨hnodup, ?_⟩
    intro e he
    obtain ⟨dpt, hdpt, hef⟩ := List.mem_flatMap.mp he
    obtain ⟨_, heq⟩ := List.mem_filter.mp hef
    rw [beq_iff_eq] at heq
    rw [heq]
    exact List.mem_map_of_mem _ hdpt
  | addDept c f n hr hfresh ih =>
    by_cases hs : (c.find_department (lowerString (trimString n))).isSome = true
    · simpa [Company.add_department, hs] using ih
    · obtain ⟨ihn, ihm⟩ := ih
      have hstate : (c.add_department f n).1
          = { departments :=
                c.departments ++ [Department.mk f (lowerString (trimString n))],
              employees := c.employees,
              events := c.events
                ++ [DomainEvent.mk (CompanyEvents.DepartmentAdded
                      (Department.mk f (lowerString (trimString n))))] } := by
        simp [Company.add_department, hs, Company.apply]
      rw [CompanyInv, hstate]
      constructor
      · simp [List.nodup_append, ihn]
        intro a ha hid
        exact hfresh (hid ▸ List.mem_map_of_mem _ ha)
      · intro e he
        simp only [List.map_append, List.mem_append]
        exact Or.inl (ihm e he)
  | hire c f en dn hr ih =>
    cases hfind : c.find_department dn with
    | none =>
      simpa [Company.hire_employee, hfind] using ih
    | some dep =>
      obtain ⟨ihn, ihm⟩ := ih
      have hdep : dep ∈ c.departments := by
        rw [Company.find_department] at hfind
        exact List.mem_of_find?_eq_some hfind
      constructor
      · simpa [Company.hire_employee, hfind, Company.apply] using ihn
      · intro e he
        simp only [Company.hire_employee, hfind, Company.apply, List.mem_append,
          List.mem_singleton] at he ⊢
        rcases he with he | he
        · exact ihm e he
        · rw [he]
          exact List.mem_map_of_mem _ hdep

lemma flatMap_congr_members {α β : Type} {l : List α} {f g : α → List β}
    (h : ∀ a ∈ l, f a = g a) : l.flatMap f = l.flatMap g := by
  induction l with
  | nil => rfl
  | cons a l ih =>
    rw [List.flatMap_cons, List.flatMap_cons, h a (List.mem_cons_self a l),
      ih (fun b hb => h b (List.mem_cons_of_mem a hb))]

/-- Grouping the employee rows by department id recovers them all, up to
ordering, when the ids are pairwise distinct and every row references a
listed id. -/
lemma flatMap_filter_perm (ids : List String) :
    ∀ emps : List Employee, ids.Nodup →
      (∀ e ∈ emps, e.department_id ∈ ids) →
      (ids.flatMap (fun i => emps.filter (fun e => e.department_id == i))).Perm emps := by
  induction ids with
  | nil =>
    intro emps _ hmem
    have : emps = [] :=
      List.eq_nil_iff_forall_not_mem.mpr (fun e he => by simpa using hmem e he)
    rw [this]
    exact List.Perm.refl _
  | cons i rest ih =>
    intro emps hnd hmem
    obtain ⟨hi, hrestnd⟩ := List.nodup_cons.mp hnd
    rw [List.flatMap_cons]
    have hrestfilters : ∀ j ∈ rest,
        emps.filter (fun e => e.department_id == j)
          = (emps.filter (fun e => !(e.department_id == i))).filter
              (fun e => e.department_id == j) := by
      intro j hj
      rw [List.filter_filter]
      apply List.filter_congr
      intro e _
      have hij : j ≠ i := fun hji => hi (hji ▸ hj)
      by_cases hej : e.department_id = j
      · simp [hej, hij]
      · simp [hej]
    have hbody : rest.flatMap (fun j => emps.filter (fun e => e.department_id == j))
        = rest.flatMap (fun j =>
            (emps.filter (fun e => !(e.department_id == i))).filter
              (fun e => e.department_id == j)) :=
      flatMap_congr_members hrestfilters
    have hmem' : ∀ e ∈ emps.filter (fun e => !(e.department_id == i)),
        e.department_id ∈ rest := by
      intro e he
      obtain ⟨hemem, hne⟩ := List.mem_filter.mp he
      simp only [Bool.not_eq_eq_eq_not, Bool.not_true, beq_eq_false_iff_ne] at hne
      rcases List.mem_cons.mp (hmem e hemem) with heq | hrest
      · exact absurd heq hne
      · exact hrest
    have hperm' := ih (emps.filter (fun e => !(e.department_id == i))) hrestnd hmem'
    rw [hbody]
    exact List.Perm.trans (List.Perm.append_left _ hperm')
      (List.filter_append_perm _ emps)

/-- C5: on every reachable company state the total employee count equals the
sum over the departments of the per-department employee counts. -/
theorem total_employees_eq_sum_over_departments (c : Company) (h : Reachable c) :
    c.get_total_employees
      = (c.departments.map (fun d => c.get_employees_by_department d.id)).sum := by
  obtain ⟨hnd, hmem⟩ := inv_of_reachable h
  have hperm := flatMap_filter_perm (c.departments.map Department.id) c.employees hnd hmem
  have hlen := hperm.length_eq
  rw [List.length_flatMap, List.map_map] at hlen
  rw [Company.get_total_employees, ← hlen]
  congr 1
  apply List.map_congr_left
  intro d _
  rw [Company.get_employees_by_department]
  simp only [Function.comp]
  congr 1
  apply List.filter_congr
  intro e _
  by_cases hde : d.id = e.department_id
  · simp [hde]
  · simp [hde, Ne.symm hde]

theorem total_employees_eq_sum_over_departments_witness :
    sampleSavedCompany.get_total_employees
      = (sampleSavedCompany.departments.map
          (fun d => sampleSavedCompany.get_employees_by_department d.id)).sum :=
  total_employees_eq_sum_over_departments sampleSavedCompany
    (Reachable.hire _ "e1" "Alice" "engineering"
      (Reachable.addDept _ "d1" "Engineering " Reachable.base (by decide)))

lemma get_employees_perm (db : Database)
    (hnodup : (db.departments.map Department.id).Nodup)
    (hfk : ∀ e ∈ db.employees, e.department_id ∈ db.departments.map Department.id) :
    (Repository.get db).employees.Perm db.employees := by
  have hmapped : (Repository.get db).employees
      = (db.departments.map Department.id).flatMap
          (fun i => db.employees.filter (fun e => e.department_id == i)) := by
    rw [Repository.get, List.flatMap_map]
  rw [hmapped]
  exact flatMap_filter_perm _ _ hnodup hfk

/-- C6: after a successful `save` of the aggregate's uncommitted events into
the storage, a fresh `load` from that storage yields an aggregate whose
departments are exactly the previously committed rows followed by the saved
events' departments, whose employees are — up to the grouped-by-department
load ordering — the previously committed rows plus the saved events'
employees, and whose event buffer is empty. The hypotheses are the storage
schema's `PRIMARY KEY` and `REFERENCES` integrity of the resulting state. -/
theorem save_then_load_round_trip (c : Company) (db db' : Database)
    (hsave : Repository.save c db = Except.ok db')
    (hnodup : (db'.departments.map Department.id).Nodup)
    (hfk : ∀ e ∈ db'.employees, e.department_id ∈ db'.departments.map Department.id) :
    (Repository.get db').events = []
    ∧ (Repository.get db').departments
        = db.departments ++ c.saveInserts.filterMap insertedDepartment
    ∧ (Repository.get db').employees.Perm
        (db.employees ++ c.saveInserts.filterMap insertedEmployee) := by
  rw [Repository.save] at hsave
  obtain ⟨h1, h2⟩ := foldlM_execute_ok c.saveInserts db db' hsave
  refine ⟨rfl, ?_, ?_⟩
  · have hd : (Repository.get db').departments = db'.departments := rfl
    rw [hd, h1]
  · have hperm := get_employees_perm db' hnodup hfk
    rw [h2] at hperm
    exact hperm

theorem save_then_load_round_trip_witness :
    (Repository.get sampleSavedDb).events = []
    ∧ (Repository.get sampleSavedDb).departments
        = sampleDb.departments
            ++ sampleSavedCompany.saveInserts.filterMap insertedDepartment
    ∧ (Repository.get sampleSavedDb).employees.Perm
        (sampleDb.employees
            ++ sampleSavedCompany.saveInserts.filterMap insertedEmployee) :=
  save_then_load_round_trip sampleSavedCompany sampleDb sampleSavedDb
    (by decide) (by decide) (by decide)

/-- C2 (failing input): for a company with one department and zero employees
— total_employees == 0 — the generated report's distribution entry carries
percentage `none`, the model of the unguarded f32 division `0.0 / 0.0`
producing NaN: the code does not guard the division. -/
theorem generate_report_zero_total_nan :
    generate_report (Company.mkDefault.add_department "d1" "Engineering ").1
      = { departments := 1, employees := 0,
          company_distribution := [("engineering", none, 0)] } := by
  decide

end CompanyTrack
